import Mathlib

/-!
Verification of the RAG-lite retrieval pipeline (`src/rag_lite.py`).

Modelling conventions for the shallow embedding:
* Python strings are lists of Unicode code points, `PyStr := List Nat`.
  The claims only exercise ASCII inputs; `charLower`, `isPySpace`, `pyIsDigit`
  implement the ASCII fragment of `str.lower`, `\s`, `str.isdigit`.
* Python floats are modelled by exact rationals `ℚ`; the scorer's arithmetic
  (`count * (len / 5)`, `1 + n * 0.1`) is carried out exactly.
* File I/O is modelled by passing the file's contents as an `Option PyStr`
  (`none` = `FileNotFoundError`), and the module-global knowledge-base cache
  `_kb_chunks` by explicit state of type `Option (List PyStr)`.
* Python `set` accumulation is modelled by list concatenation followed by
  `List.dedup` in `normalize_keywords`; every theorem below is insensitive to
  the (unspecified) iteration order of a Python set.
* The three regex-based keyword extractors (`extract_sql_keywords`,
  `extract_java_keywords`, `extract_content_keywords`) are taken as
  uninterpreted parameters bundled in `Extractors`; every claim settled here
  holds for every possible behaviour of them, so the theorems are universally
  quantified over the bundle.
-/

/-- Python strings as lists of code points. -/
abbrev PyStr := List Nat

/-- ASCII whitespace, the characters matched by Python `str.split()` / `str.strip()` / `\s`. -/
def isPySpace (c : Nat) : Bool :=
  c == 32 || c == 9 || c == 10 || c == 13 || c == 11 || c == 12

/-- ASCII `str.lower` on a single code point. -/
def charLower (c : Nat) : Nat := if 65 ≤ c ∧ c ≤ 90 then c + 32 else c

/-- Python `str.lower` (ASCII fragment). -/
def pyLower (s : PyStr) : PyStr := s.map charLower

/-- Remove trailing whitespace. -/
def dropTrailingWs : PyStr → PyStr
  | [] => []
  | c :: cs =>
    let r := dropTrailingWs cs
    if r.isEmpty && isPySpace c then [] else c :: r

/-- Python `str.strip()`: remove leading and trailing whitespace. -/
def pyStrip (s : PyStr) : PyStr := dropTrailingWs (s.dropWhile isPySpace)

/-- Python `str.isdigit()` (ASCII fragment): nonempty and all decimal digits. -/
def pyIsDigit (s : PyStr) : Bool :=
  !s.isEmpty && s.all (fun c => decide (48 ≤ c) && decide (c ≤ 57))

/-- Decode a Lean string literal into the `PyStr` model. -/
def pyOfString (s : String) : PyStr := s.data.map Char.toNat

/-- Auxiliary scanner for `splitWs`, accumulating the current word reversed. -/
def wordsAux : PyStr → PyStr → List PyStr
  | [], acc => if acc.isEmpty then [] else [acc.reverse]
  | c :: cs, acc =>
    if isPySpace c then
      if acc.isEmpty then wordsAux cs [] else acc.reverse :: wordsAux cs []
    else wordsAux cs (c :: acc)

/-- Python `str.split()` with no argument: split on whitespace runs, dropping empties. -/
def splitWs (s : PyStr) : List PyStr := wordsAux s []

/-- Python `' '.join(words)`: concatenate with a single space between entries. -/
def joinSpace : List PyStr → PyStr
  | [] => []
  | [w] => w
  | w :: ws => w ++ 32 :: joinSpace ws

/-- Auxiliary for `countOcc`: count non-overlapping occurrences scanning left to right.
After a hit, `skip` positions are consumed without looking for a match, so a new hit
can start only after the previous one ends (Python `str.count` semantics). -/
def countOccAux (pat : PyStr) : PyStr → Nat → Nat
  | [], _ => 0
  | _ :: cs, Nat.succ n => countOccAux pat cs n
  | c :: cs, 0 =>
    if pat.isPrefixOf (c :: cs) then countOccAux pat cs (pat.length - 1) + 1
    else countOccAux pat cs 0

/-- Python `text.count(pat)`: non-overlapping occurrences; an empty pattern counts `len + 1`. -/
def countOcc (text pat : PyStr) : Nat :=
  match pat with
  | [] => text.length + 1
  | _ :: _ => countOccAux pat text 0

/-- One term of the scoring loop in `calculate_relevance_score` (rag_lite.py:160-167):
the contribution of a single keyword, `count * (len(keyword) / 5)` when it occurs. -/
def scoreTerm (text_lower : PyStr) (k : PyStr) : ℚ :=
  if 0 < countOcc text_lower (pyLower k) then
    (countOcc text_lower (pyLower k) : ℚ) * ((k.length : ℚ) / 5)
  else 0

/-- The set of distinct keywords matched by the scoring loop (`matched_keywords`),
as the deduplicated sublist of matching keywords. -/
def matchedKeywords (text_lower : PyStr) (keywords : List PyStr) : List PyStr :=
  (keywords.filter (fun k => decide (0 < countOcc text_lower (pyLower k)))).dedup

/-- Embedding of `calculate_relevance_score` (rag_lite.py:151-173). -/
def calculate_relevance_score (text : PyStr) (keywords : List PyStr) : ℚ :=
  if text.isEmpty || keywords.isEmpty then 0
  else
    let text_lower := pyLower text
    let score := (keywords.map (scoreTerm text_lower)).sum
    let m := (matchedKeywords text_lower keywords).length
    if 1 < m then score * (1 + (m : ℚ) * (1 / 10)) else score

/-- Index of the last newline inside a whitespace run, used by `blankMatchJ`. -/
def lastNlIdx (r : PyStr) : Option Nat :=
  match r.reverse.findIdx? (fun c => c == 10) with
  | some k => some (r.length - 1 - k)
  | none => none

/-- Leftmost greedy match of the regex `\n\s*\n` starting at the head of `s`
(as used by `re.split` in `chunk_knowledge_base`, rag_lite.py:222). Returns
`some j` when the match is `'\n'`, then `j + 1` further characters of which the
last is the closing `'\n'`; the total match length is `j + 2`. -/
def blankMatchJ (s : PyStr) : Option Nat :=
  match s with
  | c :: rest => if c = 10 then lastNlIdx (rest.takeWhile isPySpace) else none
  | [] => none

/-- Scanner for `re.split(r'\n\s*\n', content)`: `acc` is the current segment reversed,
`skip` the number of characters of a previous match still to be consumed. -/
def reSplitAux : PyStr → PyStr → Nat → List PyStr
  | [], acc, _ => [acc.reverse]
  | _ :: cs, acc, Nat.succ n => reSplitAux cs acc n
  | c :: cs, acc, 0 =>
    match blankMatchJ (c :: cs) with
    | some j => acc.reverse :: reSplitAux cs [] (j + 1)
    | none => reSplitAux cs (c :: acc) 0

/-- Embedding of `re.split(r'\n\s*\n', content)`: split on blank-line boundaries. -/
def reSplitBlank (s : PyStr) : List PyStr := reSplitAux s [] 0

/-- Python `range(0, stop, step)` for `step > 0` (the only use in `chunk_knowledge_base`);
`step = 0` is an error in Python and yields `[]` here. -/
def pyRange (stop step : Nat) : List Nat :=
  if step = 0 then [] else (List.range ((stop + step - 1) / step)).map (· * step)

/-- Embedding of `chunk_knowledge_base` (rag_lite.py:216-239): split into paragraphs
on blank lines, drop paragraphs shorter than 50 characters after stripping, keep short
paragraphs whole, and slide a `chunk_size`-word window advancing by
`chunk_size - overlap` words across long paragraphs. -/
def chunk_knowledge_base (content : PyStr) (chunk_size : Nat := 300) (overlap : Nat := 50) :
    List PyStr :=
  if content.isEmpty then []
  else
    (reSplitBlank content).flatMap (fun para =>
      if (pyStrip para).length < 50 then []
      else
        let words := splitWs para
        if words.length ≤ chunk_size then [pyStrip para]
        else
          (pyRange words.length (chunk_size - overlap)).map
            (fun i => pyStrip (joinSpace ((words.drop i).take chunk_size))))

/-- Embedding of `load_and_chunk_knowledge_base` (rag_lite.py:244-256). The module
global `_kb_chunks` is the explicit state `st`; the knowledge-base file is modelled by
its contents `fs` at call time (`none` = `FileNotFoundError`). Returns the chunk list
and the new cache state. -/
def load_and_chunk_knowledge_base (fs : Option PyStr) (st : Option (List PyStr)) :
    List PyStr × Option (List PyStr) :=
  match st with
  | some chunks => (chunks, some chunks)
  | none =>
    match fs with
    | some content => (chunk_knowledge_base content, some (chunk_knowledge_base content))
    | none => ([], some [])

/-- One entry of the payload's `queries` list: a mapping with optional
`sql` and `method_name` fields (`dict.get` with defaults in the source). -/
structure Query where
  sql : Option PyStr
  method_name : Option PyStr
deriving DecidableEq

/-- One entry of the payload's `messages` list. `role` is read with
`message.get('role')` (absent behaves as a non-user role); `content` is read with
`message['content']` and is modelled as present. -/
structure Message where
  role : Option PyStr
  content : PyStr
deriving DecidableEq

/-- One entry of `repositories` or `entities`: a free-form mapping, modelled by
its Python `str(...)` rendering `text` (used both for keyword extraction and as the
search blob) and its optional `name` field. -/
structure JavaSource where
  text : PyStr
  name : Option PyStr
deriving DecidableEq

/-- The JSON payload: a mapping with four optional keys (absent key = `none`). -/
structure Payload where
  queries : Option (List Query)
  messages : Option (List Message)
  repositories : Option (List JavaSource)
  entities : Option (List JavaSource)
deriving DecidableEq

/-- The stopword list of `normalize_keywords` (rag_lite.py:6-10). -/
def stop_words : List PyStr :=
  [pyOfString "the", pyOfString "a", pyOfString "an", pyOfString "in", pyOfString "on",
   pyOfString "of", pyOfString "is", pyOfString "are", pyOfString "and", pyOfString "or",
   pyOfString "to", pyOfString "from", pyOfString "for", pyOfString "with", pyOfString "by",
   pyOfString "at", pyOfString "as", pyOfString "be", pyOfString "this", pyOfString "that",
   pyOfString "it", pyOfString "if", pyOfString "not", pyOfString "but", pyOfString "can",
   pyOfString "get", pyOfString "set", pyOfString "new", pyOfString "old", pyOfString "all",
   pyOfString "any", pyOfString "has", pyOfString "had"]

/-- Embedding of `normalize_keywords` (rag_lite.py:4-19): lowercase and strip each
keyword, drop the ones of length ≤ 2, stopwords, and purely numeric tokens, and
deduplicate (the source's Python `set`; its iteration order is unspecified, so the
result is modelled up to the order `List.dedup` picks). -/
def normalize_keywords (keywords : List PyStr) : List PyStr :=
  ((keywords.map (fun k => pyStrip (pyLower k))).filter
    (fun k => decide (2 < k.length) && !(decide (k ∈ stop_words)) && !(pyIsDigit k))).dedup

/-- The fixed baseline term set added in `extract_keywords_from_payload` (rag_lite.py:54). -/
def baseline_keywords : List PyStr :=
  [pyOfString "index", pyOfString "optimization", pyOfString "performance",
   pyOfString "query", pyOfString "sql", pyOfString "jpa", pyOfString "hibernate"]

/-- The three regex-based keyword extractors of rag_lite.py (`extract_sql_keywords`,
`extract_java_keywords`, `extract_content_keywords`), taken as uninterpreted
parameters: every theorem below holds for every possible behaviour of them. -/
structure Extractors where
  extract_sql_keywords : PyStr → PyStr → List PyStr
  extract_java_keywords : PyStr → List PyStr
  extract_content_keywords : PyStr → List PyStr

/-- Embedding of `extract_keywords_from_payload` (rag_lite.py:21-60): union the
per-source keyword sets with the fixed baseline terms and normalize. Set union is
modelled by list concatenation, collapsed by the dedup in `normalize_keywords`. -/
def extract_keywords_from_payload (E : Extractors) (p : Payload) : List PyStr :=
  let kwQueries := (p.queries.getD []).flatMap
    (fun q => E.extract_sql_keywords (q.sql.getD []) (q.method_name.getD []))
  let kwMessages := (p.messages.getD []).flatMap
    (fun m => E.extract_content_keywords m.content)
  let kwRepos := (p.repositories.getD []).flatMap (fun r => E.extract_java_keywords r.text)
  let kwEntities := (p.entities.getD []).flatMap (fun e => E.extract_java_keywords e.text)
  normalize_keywords (kwQueries ++ kwMessages ++ kwRepos ++ kwEntities ++ baseline_keywords)

/-- Stable insertion of a scored snippet into a list sorted by descending score:
the element is placed before the first element whose score is ≤ its own, matching
Python `list.sort(key=..., reverse=True)`, which keeps equal-scored elements in
encounter order. -/
def insertD (x : PyStr × ℚ) : List (PyStr × ℚ) → List (PyStr × ℚ)
  | [] => [x]
  | y :: ys => if x.2 < y.2 then y :: insertD x ys else x :: y :: ys

/-- Stable sort by descending score, the embedding of
`relevant_snippets.sort(key=lambda x: x[1], reverse=True)`. -/
def sortD : List (PyStr × ℚ) → List (PyStr × ℚ)
  | [] => []
  | x :: xs => insertD x (sortD xs)

/-- Embedding of `search_payload_context` (rag_lite.py:175-214): score one blob per
repository, entity and query entry, keep the ones with positive score, stable-sort
descending by score, return the top `max_snippets` rendered snippets. The source's
local variables `relevance_score` and `query_content` are inlined. -/
def search_payload_context (keywords : List PyStr) (p : Payload) (max_snippets : Nat := 3) :
    List PyStr :=
  let repoSnips := (p.repositories.getD []).filterMap (fun repo =>
    if 0 < calculate_relevance_score repo.text keywords then
      some (pyOfString "Repository: " ++ repo.name.getD (pyOfString "Unknown") ++ [10] ++
        repo.text.take 400 ++ pyOfString "...", calculate_relevance_score repo.text keywords)
    else none)
  let entitySnips := (p.entities.getD []).filterMap (fun ent =>
    if 0 < calculate_relevance_score ent.text keywords then
      some (pyOfString "Entity: " ++ ent.name.getD (pyOfString "Unknown") ++ [10] ++
        ent.text.take 400 ++ pyOfString "...", calculate_relevance_score ent.text keywords)
    else none)
  let querySnips := (p.queries.getD []).filterMap (fun q =>
    if 0 < calculate_relevance_score (pyOfString "SQL: " ++ q.sql.getD [] ++
        pyOfString " Method: " ++ q.method_name.getD []) keywords then
      some (pyOfString "Query: " ++ q.method_name.getD (pyOfString "Unknown") ++ [10] ++
        (pyOfString "SQL: " ++ q.sql.getD [] ++ pyOfString " Method: " ++ q.method_name.getD []),
        calculate_relevance_score (pyOfString "SQL: " ++ q.sql.getD [] ++
          pyOfString " Method: " ++ q.method_name.getD []) keywords)
    else none)
  ((sortD (repoSnips ++ entitySnips ++ querySnips)).take max_snippets).map Prod.fst

/-- Embedding of `search_knowledge_base` (rag_lite.py:258-280), with the cache state
threaded explicitly: load (or reuse) the chunked knowledge base, score every chunk,
keep positive scores, stable-sort descending, return the top `max_snippets` chunks. -/
def search_knowledge_base (keywords : List PyStr) (fs : Option PyStr)
    (st : Option (List PyStr)) (max_snippets : Nat := 3) :
    List PyStr × Option (List PyStr) :=
  let loaded := load_and_chunk_knowledge_base fs st
  let chunks := loaded.1
  if chunks.isEmpty then ([], loaded.2)
  else
    let scored := chunks.filterMap (fun chunk =>
      let s := calculate_relevance_score chunk keywords
      if 0 < s then some (chunk, s) else none)
    (((sortD scored).take max_snippets).map Prod.fst, loaded.2)

/-- Decimal rendering of a number, for the `Context {i}:` / `Knowledge {i}:` labels. -/
def pyShowNat (n : Nat) : PyStr := (Nat.toDigits 10 n).map Char.toNat

/-- One labeled section of `format_context_for_injection` (rag_lite.py:286-298):
a header line followed, for each snippet numbered from 1, by a `label i:` line,
the snippet, and an empty line; empty sections are omitted entirely. -/
def sectionBlock (header label : PyStr) (snips : List PyStr) : List PyStr :=
  if snips.isEmpty then []
  else
    header :: (snips.enum.flatMap
      (fun is => [label ++ pyShowNat (is.1 + 1) ++ pyOfString ":", is.2, []]))

/-- Embedding of `format_context_for_injection` (rag_lite.py:282-300). -/
def format_context_for_injection (relevant_context kb_snippets : List PyStr) : PyStr :=
  List.intercalate [10]
    (sectionBlock (pyOfString "=== RELEVANT CODE CONTEXT ===") (pyOfString "Context ")
        relevant_context ++
      sectionBlock (pyOfString "=== OPTIMIZATION KNOWLEDGE BASE ===") (pyOfString "Knowledge ")
        kb_snippets)

/-- The truncation marker appended in `enrich_payload_with_rag` (rag_lite.py:335). -/
def truncMarker : PyStr := pyOfString "\n\n[Context truncated due to token limit]"

/-- The truncation step of `enrich_payload_with_rag` (rag_lite.py:332-336): the
character budget is `max_context_tokens * 4`; a context text over budget is cut at
the budget boundary and the fixed marker is appended. -/
def truncated_context (context_text : PyStr) (max_context_tokens : Nat) : PyStr :=
  let max_context_chars := max_context_tokens * 4
  if max_context_chars < context_text.length then
    context_text.take max_context_chars ++ truncMarker
  else context_text

/-- The string appended to the chosen user message (rag_lite.py:338):
two newlines, the (possibly truncated) context, and the fixed instruction tail. -/
def rag_addition_of (relevant_context kb_snippets : List PyStr) (max_context_tokens : Nat) :
    PyStr :=
  pyOfString "\n\n" ++
    truncated_context (format_context_for_injection relevant_context kb_snippets)
      max_context_tokens ++
    pyOfString "\n\nBased on the above context, please provide your analysis and recommendations.\n"

/-- The role string compared against in the injection loop. -/
def userStr : PyStr := pyOfString "user"

/-- Append `add` to a message's `content` (the `message['content'] += rag_addition`
of rag_lite.py:343). -/
def updMsg (m : Message) (add : PyStr) : Message := { m with content := m.content ++ add }

/-- The injection loop body (rag_lite.py:341-345) viewed from the front of the
reversed list: append to the first message whose role is `"user"`, leave the rest. -/
def appendFirstUser (add : PyStr) : List Message → List Message
  | [] => []
  | m :: ms =>
    if m.role = some userStr then updMsg m add :: ms else m :: appendFirstUser add ms

/-- Embedding of the injection loop `for message in reversed(payload['messages'])`
(rag_lite.py:341-345): mutate the last message whose role is `"user"`, if any. -/
def appendToLastUser (msgs : List Message) (add : PyStr) : List Message :=
  (appendFirstUser add msgs.reverse).reverse

/-- Embedding of `enrich_payload_with_rag` (rag_lite.py:302-354). The payload file
is modelled by the payload value `p`; the knowledge-base file by its contents `fs`;
the module-global chunk cache by the state `st`. Returns the written-back payload and
the new cache state. -/
def enrich_payload_with_rag (E : Extractors) (fs : Option PyStr) (st : Option (List PyStr))
    (p : Payload) (max_context_tokens : Nat := 30000) : Payload × Option (List PyStr) :=
  let keywords := extract_keywords_from_payload E p
  if keywords.isEmpty then (p, st)
  else
    let relevant_context := search_payload_context keywords p 4
    let kbSearch := search_knowledge_base keywords fs st 3
    let kb_snippets := kbSearch.1
    if (!relevant_context.isEmpty || !kb_snippets.isEmpty) && p.messages.isSome then
      let rag_addition := rag_addition_of relevant_context kb_snippets max_context_tokens
      ({ p with messages := some (appendToLastUser (p.messages.getD []) rag_addition) },
        kbSearch.2)
    else (p, kbSearch.2)

/-- The scorer as the specification states it (spec §4.2): the sum, over each
keyword whose case-insensitive occurrence count in the text is positive, of
`count * (keyword_length / 5)`, multiplied by `1 + 0.1 * (number of distinct
matched keywords)` exactly when more than one distinct keyword matched. -/
def score_spec (text : PyStr) (keywords : List PyStr) : ℚ :=
  if text.isEmpty || keywords.isEmpty then 0
  else
    let text_lower := pyLower text
    let matched := keywords.filter (fun k => decide (0 < countOcc text_lower (pyLower k)))
    let total :=
      (matched.map (fun k =>
        (countOcc text_lower (pyLower k) : ℚ) * ((k.length : ℚ) / 5))).sum
    if 1 < matched.dedup.length then total * (1 + (1 / 10) * (matched.dedup.length : ℚ))
    else total

/-- The payload search as the specification states it (spec §4.4, with the query
blobs kept in full): build one `(rendered block, blob)` candidate per repository,
entity and query entry in encounter order, score every blob, keep exactly the
candidates with positive score, stable-sort descending by score, and return the
top `max_snippets` rendered blocks. -/
def search_payload_context_spec (keywords : List PyStr) (p : Payload)
    (max_snippets : Nat := 3) : List PyStr :=
  let candidates : List (PyStr × PyStr) :=
    (p.repositories.getD []).map (fun r =>
      (pyOfString "Repository: " ++ r.name.getD (pyOfString "Unknown") ++ [10] ++
        r.text.take 400 ++ pyOfString "...", r.text)) ++
    (p.entities.getD []).map (fun e =>
      (pyOfString "Entity: " ++ e.name.getD (pyOfString "Unknown") ++ [10] ++
        e.text.take 400 ++ pyOfString "...", e.text)) ++
    (p.queries.getD []).map (fun q =>
      (pyOfString "Query: " ++ q.method_name.getD (pyOfString "Unknown") ++ [10] ++
        (pyOfString "SQL: " ++ q.sql.getD [] ++ pyOfString " Method: " ++ q.method_name.getD []),
        pyOfString "SQL: " ++ q.sql.getD [] ++ pyOfString " Method: " ++ q.method_name.getD []))
  let scored := candidates.map (fun c => (c.1, calculate_relevance_score c.2 keywords))
  let kept := scored.filter (fun c => decide (0 < c.2))
  ((sortD kept).take max_snippets).map Prod.fst

/-- Test vector for the chunking claim: one word of the 620-word paragraph. -/
def c3Word : PyStr := pyOfString "word"

/-- Test vector for the chunking claim: 620 identical words. -/
def c3Words : List PyStr := List.replicate 620 c3Word

/-- Test vector for the chunking claim: a single 620-word paragraph (3099 characters,
no blank lines). -/
def c3Content : PyStr := joinSpace c3Words

/-- Test vector for the payload-search claim: a 401-character SQL text. -/
def c4Sql : PyStr := List.replicate 401 97

/-- Test vector for the payload-search claim: a single query entry. -/
def c4Query : Query := { sql := some c4Sql, method_name := some (pyOfString "m") }

/-- Test vector for the payload-search claim: a payload holding only `c4Query`. -/
def c4Payload : Payload :=
  { queries := some [c4Query], messages := none, repositories := none, entities := none }

/-- The blob built for `c4Query` by the payload search: 415 characters. -/
def c4Blob : PyStr := pyOfString "SQL: " ++ c4Sql ++ pyOfString " Method: " ++ pyOfString "m"

/-- The block returned for `c4Query`: its blob portion is the whole 415-character
blob, not a 400-character truncation. -/
def c4Block : PyStr := pyOfString "Query: " ++ pyOfString "m" ++ [10] ++ c4Blob

/-- Trivial extractor bundle used to instantiate witnesses. -/
def trivialExtractors : Extractors :=
  { extract_sql_keywords := fun _ _ => [],
    extract_java_keywords := fun _ => [],
    extract_content_keywords := fun _ => [] }

/-- Witness payload for the enrichment claim: one query matching the baseline
keyword `"sql"` and two messages, the last of which has role `"user"`. -/
def w2Payload : Payload :=
  { queries := some [{ sql := some (pyOfString "select 1"), method_name := some (pyOfString "m") }],
    messages := some [{ role := some (pyOfString "system"), content := pyOfString "sys" },
                      { role := some userStr, content := pyOfString "hi" }],
    repositories := none, entities := none }

/-! Helper lemmas about the string model. -/

lemma charLower_charLower (c : Nat) : charLower (charLower c) = charLower c := by
  unfold charLower
  split
  · rename_i h
    rw [if_neg]
    omega
  · rfl

lemma isPySpace_charLower (c : Nat) : isPySpace (charLower c) = isPySpace c := by
  unfold charLower isPySpace
  split
  · rename_i h
    have h32 : ¬ (c + 32 == 32 || c + 32 == 9 || c + 32 == 10 || c + 32 == 13 ||
        c + 32 == 11 || c + 32 == 12) = true := by
      simp only [Bool.or_eq_true, beq_iff_eq]
      omega
    have hc : ¬ (c == 32 || c == 9 || c == 10 || c == 13 || c == 11 || c == 12) = true := by
      simp only [Bool.or_eq_true, beq_iff_eq]
      omega
    simp only [Bool.not_eq_true] at h32 hc
    rw [h32, hc]
  · rfl

lemma pyLower_pyLower (s : PyStr) : pyLower (pyLower s) = pyLower s := by
  unfold pyLower
  rw [List.map_map]
  exact List.map_congr_left fun c _ => charLower_charLower c

lemma dropTrailingWs_map_charLower (s : PyStr) :
    dropTrailingWs (s.map charLower) = (dropTrailingWs s).map charLower := by
  induction s with
  | nil => rfl
  | cons c cs ih =>
    simp only [List.map_cons, dropTrailingWs, ih, isPySpace_charLower]
    by_cases h : (((dropTrailingWs cs).map charLower).isEmpty && isPySpace c) = true
    · rw [if_pos h]
      have h2 : ((dropTrailingWs cs).isEmpty && isPySpace c) = true := by
        simpa [List.isEmpty_iff, List.map_eq_nil_iff] using h
      rw [if_pos h2]
      rfl
    · rw [if_neg h]
      have h2 : ¬ (((dropTrailingWs cs).isEmpty && isPySpace c) = true) := by
        simpa [List.isEmpty_iff, List.map_eq_nil_iff] using h
      rw [if_neg h2]
      simp

lemma dropWhile_map_charLower (s : PyStr) :
    (s.map charLower).dropWhile isPySpace = (s.dropWhile isPySpace).map charLower := by
  induction s with
  | nil => rfl
  | cons c cs ih =>
    simp only [List.map_cons, List.dropWhile_cons, isPySpace_charLower]
    by_cases h : isPySpace c = true
    · simp [h, ih]
    · simp [h]

lemma pyLower_pyStrip (s : PyStr) : pyLower (pyStrip s) = pyStrip (pyLower s) := by
  unfold pyStrip pyLower
  rw [dropWhile_map_charLower, dropTrailingWs_map_charLower]

lemma dropTrailingWs_idem (s : PyStr) : dropTrailingWs (dropTrailingWs s) = dropTrailingWs s := by
  induction s with
  | nil => rfl
  | cons c cs ih =>
    simp only [dropTrailingWs]
    by_cases h : ((dropTrailingWs cs).isEmpty && isPySpace c) = true
    · rw [if_pos h]
      rfl
    · rw [if_neg h]
      simp only [dropTrailingWs, ih]
      rw [if_neg h]

lemma head_fail_of_dropWhile {p : Nat → Bool} {s : PyStr} {c : Nat} {t : PyStr}
    (h : s.dropWhile p = c :: t) : p c = false := by
  induction s with
  | nil => simp at h
  | cons a as ih =>
    rw [List.dropWhile_cons] at h
    by_cases ha : p a = true
    · rw [if_pos ha] at h
      exact ih h
    · rw [if_neg ha] at h
      cases h
      simpa using ha

lemma dropTrailingWs_head {s : PyStr} {c : Nat} {t : PyStr}
    (h : dropTrailingWs s = c :: t) : ∃ u, s = c :: u := by
  cases s with
  | nil => simp [dropTrailingWs] at h
  | cons a as =>
    simp only [dropTrailingWs] at h
    by_cases hc : ((dropTrailingWs as).isEmpty && isPySpace a) = true
    · rw [if_pos hc] at h
      cases h
    · rw [if_neg hc] at h
      cases h
      exact ⟨as, rfl⟩

lemma pyStrip_idem (s : PyStr) : pyStrip (pyStrip s) = pyStrip s := by
  unfold pyStrip
  rcases hd : dropTrailingWs (s.dropWhile isPySpace) with _ | ⟨c, t⟩
  · rfl
  · obtain ⟨u, hu⟩ := dropTrailingWs_head hd
    have hc : isPySpace c = false := head_fail_of_dropWhile hu
    rw [List.dropWhile_cons_of_neg (by simp [hc])]
    rw [← hd, dropTrailingWs_idem, hd]

/-! Helper lemmas about word splitting and joining. -/

lemma joinSpace_cons_cons (w w' : PyStr) (ws : List PyStr) :
    joinSpace (w :: w' :: ws) = w ++ 32 :: joinSpace (w' :: ws) := rfl

lemma wordsAux_word (w : PyStr) (hw : ∀ c ∈ w, isPySpace c = false) :
    ∀ s acc, wordsAux (w ++ s) acc = wordsAux s (w.reverse ++ acc) := by
  induction w with
  | nil => intro s acc; simp
  | cons c cs ih =>
    intro s acc
    have hc : isPySpace c = false := hw c (List.mem_cons_self c cs)
    have hcs : ∀ x ∈ cs, isPySpace x = false := fun x hx => hw x (List.mem_cons_of_mem c hx)
    have step : wordsAux ((c :: cs) ++ s) acc = wordsAux (cs ++ s) (c :: acc) := by
      simp [wordsAux, hc]
    rw [step, ih hcs s (c :: acc)]
    simp [List.reverse_cons, List.append_assoc]

lemma wordsAux_nil_ne (acc : PyStr) (h : acc ≠ []) : wordsAux [] acc = [acc.reverse] := by
  simp [wordsAux, h]

lemma wordsAux_space (s acc : PyStr) (h : acc ≠ []) :
    wordsAux (32 :: s) acc = acc.reverse :: wordsAux s [] := by
  simp [wordsAux, h, show isPySpace 32 = true from rfl]

/-- A list of words each nonempty and whitespace-free. -/
def GoodWords (ws : List PyStr) : Prop :=
  ∀ w ∈ ws, w ≠ [] ∧ ∀ c ∈ w, isPySpace c = false

lemma splitWs_joinSpace (ws : List PyStr) (h : GoodWords ws) :
    splitWs (joinSpace ws) = ws := by
  induction ws with
  | nil => rfl
  | cons w ws ih =>
    obtain ⟨hw, hwc⟩ := h w (List.mem_cons_self w ws)
    have hg : GoodWords ws := fun x hx => h x (List.mem_cons_of_mem w hx)
    cases ws with
    | nil =>
      show wordsAux (joinSpace [w]) [] = [w]
      have hjw : joinSpace [w] = w ++ [] := by simp [joinSpace]
      rw [hjw, wordsAux_word w hwc [] [], List.append_nil,
        wordsAux_nil_ne _ (by simpa using hw), List.reverse_reverse]
    | cons w' ws' =>
      show wordsAux (joinSpace (w :: w' :: ws')) [] = w :: w' :: ws'
      rw [joinSpace_cons_cons, wordsAux_word w hwc _ [], List.append_nil,
        wordsAux_space _ _ (by simpa using hw), List.reverse_reverse]
      exact congrArg _ (ih hg)

lemma mem_joinSpace {c : Nat} {ws : List PyStr} (h : c ∈ joinSpace ws) :
    c = 32 ∨ ∃ w ∈ ws, c ∈ w := by
  induction ws with
  | nil => simp [joinSpace] at h
  | cons w ws ih =>
    cases ws with
    | nil =>
      right
      exact ⟨w, List.mem_cons_self w [], by simpa [joinSpace] using h⟩
    | cons w' ws' =>
      rw [joinSpace_cons_cons] at h
      rcases List.mem_append.mp h with hw | hrest
      · right; exact ⟨w, List.mem_cons_self _ _, hw⟩
      · rcases List.mem_cons.mp hrest with h32 | hj
        · left; exact h32
        · rcases ih hj with h32 | ⟨u, hu, hcu⟩
          · left; exact h32
          · right; exact ⟨u, List.mem_cons_of_mem w hu, hcu⟩

lemma joinSpace_ne_nil {w : PyStr} {ws : List PyStr} (hw : w ≠ []) :
    joinSpace (w :: ws) ≠ [] := by
  cases ws with
  | nil => simpa [joinSpace] using hw
  | cons w' ws' =>
    rw [joinSpace_cons_cons]
    simp

lemma getLast?_joinSpace (ws : List PyStr) (h : ∀ w ∈ ws, w ≠ []) :
    ws = [] ∨ ∃ w ∈ ws, (joinSpace ws).getLast? = w.getLast? := by
  induction ws with
  | nil => left; rfl
  | cons w ws ih =>
    right
    cases ws with
    | nil => exact ⟨w, List.mem_cons_self w [], rfl⟩
    | cons w' ws' =>
      have htail : ∀ x ∈ w' :: ws', x ≠ [] := fun x hx => h x (List.mem_cons_of_mem w hx)
      rcases ih htail with hnil | ⟨u, hu, hlast⟩
      · exact absurd hnil (by simp)
      · refine ⟨u, List.mem_cons_of_mem w hu, ?_⟩
        rw [joinSpace_cons_cons, List.getLast?_append_of_ne_nil _ (by simp)]
        rcases hj : joinSpace (w' :: ws') with _ | ⟨c, t⟩
        · exact absurd hj (joinSpace_ne_nil (htail w' (List.mem_cons_self w' ws')))
        · rw [List.getLast?_cons_cons, ← hj, hlast]

/-! Helper lemmas about the paragraph splitter and string lengths. -/

lemma reSplitAux_no_nl (s : PyStr) (h : ∀ c ∈ s, c ≠ 10) :
    ∀ acc, reSplitAux s acc 0 = [acc.reverse ++ s] := by
  induction s with
  | nil => intro acc; simp [reSplitAux]
  | cons c cs ih =>
    intro acc
    have hc : c ≠ 10 := h c (List.mem_cons_self c cs)
    have hcs : ∀ x ∈ cs, x ≠ 10 := fun x hx => h x (List.mem_cons_of_mem c hx)
    simp only [reSplitAux, blankMatchJ, hc, if_false, ih hcs (c :: acc),
      List.reverse_cons, List.append_assoc, List.cons_append, List.nil_append]

lemma reSplitBlank_no_nl (s : PyStr) (h : ∀ c ∈ s, c ≠ 10) : reSplitBlank s = [s] := by
  simpa using reSplitAux_no_nl s h []

lemma length_joinSpace (ws : List PyStr) (h : ws ≠ []) :
    (joinSpace ws).length = (ws.map List.length).sum + (ws.length - 1) := by
  induction ws with
  | nil => exact absurd rfl h
  | cons w ws ih =>
    cases ws with
    | nil => simp [joinSpace]
    | cons w' ws' =>
      rw [joinSpace_cons_cons]
      simp only [List.length_append, List.length_cons, ih (by simp), List.map_cons,
        List.sum_cons]
      omega

lemma dropTrailingWs_eq_self (s : PyStr)
    (hl : ∀ c, s.getLast? = some c → isPySpace c = false) :
    dropTrailingWs s = s := by
  induction s with
  | nil => rfl
  | cons a as ih =>
    cases as with
    | nil =>
      have ha := hl a rfl
      simp [dropTrailingWs, ha]
    | cons b bs =>
      have htail : ∀ c, (b :: bs).getLast? = some c → isPySpace c = false := by
        intro c hc
        exact hl c (by rw [List.getLast?_cons_cons]; exact hc)
      have hstep : dropTrailingWs (a :: b :: bs) =
          if (dropTrailingWs (b :: bs)).isEmpty && isPySpace a then []
          else a :: dropTrailingWs (b :: bs) := rfl
      rw [hstep, ih htail]
      simp

lemma pyStrip_of_good (s : PyStr)
    (hh : ∀ c, s.head? = some c → isPySpace c = false)
    (hl : ∀ c, s.getLast? = some c → isPySpace c = false) :
    pyStrip s = s := by
  cases s with
  | nil => rfl
  | cons a as =>
    have ha : isPySpace a = false := hh a rfl
    unfold pyStrip
    rw [List.dropWhile_cons_of_neg (by simp [ha])]
    exact dropTrailingWs_eq_self (a :: as) hl

/-! Helper lemmas for the chunking claim on the 620-word test paragraph. -/

lemma c3Word_good : c3Word ≠ [] ∧ ∀ c ∈ c3Word, isPySpace c = false := by decide

lemma c3Word_ne_nl : ∀ c ∈ c3Word, c ≠ 10 := by decide

lemma c3Words_eq : c3Words = List.replicate 620 c3Word := rfl

lemma goodWords_replicate (n : Nat) : GoodWords (List.replicate n c3Word) := by
  intro w hw
  rw [List.mem_replicate] at hw
  rw [hw.2]
  exact c3Word_good

lemma goodWords_slice (i n : Nat) : GoodWords ((c3Words.drop i).take n) := by
  rw [c3Words_eq, List.drop_replicate, List.take_replicate]
  exact goodWords_replicate _

lemma joinSpace_head? (w : PyStr) (ws : List PyStr) (hw : w ≠ []) :
    (joinSpace (w :: ws)).head? = w.head? := by
  cases w with
  | nil => exact absurd rfl hw
  | cons a w' =>
    cases ws with
    | nil => rfl
    | cons w'' ws' => rw [joinSpace_cons_cons]; rfl

lemma pyStrip_joinSpace (ws : List PyStr) (h : GoodWords ws) :
    pyStrip (joinSpace ws) = joinSpace ws := by
  cases ws with
  | nil => rfl
  | cons w ws' =>
    obtain ⟨hw, hwc⟩ := h w (List.mem_cons_self w ws')
    apply pyStrip_of_good
    · intro c hc
      rw [joinSpace_head? w ws' hw] at hc
      exact hwc c (List.mem_of_mem_head? (by simpa using hc))
    · intro c hc
      rcases getLast?_joinSpace (w :: ws') (fun x hx => (h x hx).1) with hnil | ⟨u, hu, hlast⟩
      · cases hnil
      · rw [hlast] at hc
        exact (h u hu).2 c (List.mem_of_mem_getLast? (by simpa using hc))

lemma c3Content_ne_nil : c3Content ≠ [] := by
  have h : c3Words = c3Word :: List.replicate 619 c3Word := rfl
  show joinSpace c3Words ≠ []
  rw [h]
  exact joinSpace_ne_nil c3Word_good.1

lemma c3Content_no_nl : ∀ c ∈ c3Content, c ≠ 10 := by
  intro c hc
  rcases mem_joinSpace hc with h32 | ⟨w, hw, hcw⟩
  · rw [h32]; decide
  · rw [c3Words_eq, List.mem_replicate] at hw
    rw [hw.2] at hcw
    exact c3Word_ne_nl c hcw

lemma c3Words_ne_nil : c3Words ≠ [] := by
  rw [c3Words_eq]
  exact List.replicate_succ_ne_nil 619 c3Word

lemma c3Words_length : c3Words.length = 620 := by
  rw [c3Words_eq, List.length_replicate]

lemma c3Content_length : c3Content.length = 3099 := by
  show (joinSpace c3Words).length = 3099
  rw [length_joinSpace c3Words c3Words_ne_nil]
  have hmap : c3Words.map List.length = List.replicate 620 4 := by
    rw [c3Words_eq, List.map_replicate]
    have h4 : c3Word.length = 4 := by decide
    rw [h4]
  rw [hmap, List.sum_replicate, c3Words_length]
  simp [smul_eq_mul]

lemma c3_strip : pyStrip c3Content = c3Content :=
  pyStrip_joinSpace c3Words (by rw [c3Words_eq]; exact goodWords_replicate 620)

lemma c3_words : splitWs c3Content = c3Words :=
  splitWs_joinSpace c3Words (by rw [c3Words_eq]; exact goodWords_replicate 620)

lemma c3_chunks_eq : chunk_knowledge_base c3Content 300 50 =
    [joinSpace ((c3Words.drop 0).take 300), joinSpace ((c3Words.drop 250).take 300),
      joinSpace ((c3Words.drop 500).take 300)] := by
  unfold chunk_knowledge_base
  rw [if_neg (by simp [List.isEmpty_iff, c3Content_ne_nil])]
  rw [reSplitBlank_no_nl c3Content c3Content_no_nl]
  simp only [List.flatMap_cons, List.flatMap_nil, List.append_nil]
  rw [if_neg (by rw [c3_strip, c3Content_length]; omega)]
  rw [c3_words, c3Words_length]
  rw [if_neg (by omega)]
  have hrange : pyRange 620 (300 - 50) = [0, 250, 500] := by decide
  rw [hrange]
  simp only [List.map_cons, List.map_nil]
  rw [pyStrip_joinSpace _ (goodWords_slice 0 300),
    pyStrip_joinSpace _ (goodWords_slice 250 300),
    pyStrip_joinSpace _ (goodWords_slice 500 300)]

lemma c3_word_counts : (chunk_knowledge_base c3Content 300 50).map
    (fun c => (splitWs c).length) = [300, 300, 120] := by
  rw [c3_chunks_eq]
  simp only [List.map_cons, List.map_nil]
  rw [splitWs_joinSpace _ (goodWords_slice 0 300),
    splitWs_joinSpace _ (goodWords_slice 250 300),
    splitWs_joinSpace _ (goodWords_slice 500 300)]
  rw [c3Words_eq]
  simp only [List.drop_replicate, List.take_replicate, List.length_replicate]
  norm_num

lemma sum_map_ite_filter (l : List PyStr) (p : PyStr → Prop) [DecidablePred p] (g : PyStr → ℚ) :
    (l.map (fun x => if p x then g x else 0)).sum =
      ((l.filter (fun x => decide (p x))).map g).sum := by
  induction l with
  | nil => rfl
  | cons a l ih =>
    by_cases h : p a
    · simp [List.filter_cons, h, ih]
    · simp [List.filter_cons, h, ih]

/-- Claim C1: for every text and keyword list, `calculate_relevance_score` returns 0
when the text or the keyword set is empty, and otherwise returns the sum, over each
keyword whose case-insensitive occurrence count in the text is positive, of
`count * (keyword_length / 5)`, multiplied by `1 + 0.1 * (number of distinct matched
keywords)` exactly when more than one distinct keyword matched, and by 1 otherwise —
the formula captured verbatim by `score_spec`. -/
theorem relevance_score_matches_spec (text : PyStr) (keywords : List PyStr) :
    calculate_relevance_score text keywords = score_spec text keywords := by
  unfold calculate_relevance_score score_spec matchedKeywords
  by_cases h : (text.isEmpty || keywords.isEmpty) = true
  · simp only [if_pos h]
  · simp only [if_neg h]
    have hmap : keywords.map (scoreTerm (pyLower text)) =
        keywords.map (fun k => if 0 < countOcc (pyLower text) (pyLower k) then
          (countOcc (pyLower text) (pyLower k) : ℚ) * ((k.length : ℚ) / 5) else 0) := rfl
    rw [hmap, sum_map_ite_filter keywords
      (fun k => 0 < countOcc (pyLower text) (pyLower k))
      (fun k => (countOcc (pyLower text) (pyLower k) : ℚ) * ((k.length : ℚ) / 5))]
    by_cases hm : 1 <
        ((keywords.filter fun k =>
          decide (0 < countOcc (pyLower text) (pyLower k))).dedup).length
    · rw [if_pos hm, if_pos hm]
      ring
    · rw [if_neg hm, if_neg hm]

/-- Claim C3 (counterexample): on a single 620-word paragraph with `chunk_size = 300`
and `overlap = 50`, the chunk word counts are not `[300, 300, 20]` as the claim
states. -/
theorem chunking_620_counterexample :
    (chunk_knowledge_base c3Content 300 50).map (fun c => (splitWs c).length) ≠
      [300, 300, 20] := by
  rw [c3_word_counts]
  decide

/-- Claim C3 (amended): a single 620-word paragraph with `chunk_size = 300` and
`overlap = 50` produces exactly 3 chunks, taken at window start positions 0, 250, 500
(slide step 250), whose word counts are 300, 300, and 120. -/
theorem chunking_620_word_paragraph :
    chunk_knowledge_base c3Content 300 50 =
      [joinSpace ((c3Words.drop 0).take 300), joinSpace ((c3Words.drop 250).take 300),
        joinSpace ((c3Words.drop 500).take 300)] ∧
    (chunk_knowledge_base c3Content 300 50).map (fun c => (splitWs c).length) =
      [300, 300, 120] :=
  ⟨c3_chunks_eq, c3_word_counts⟩

/-- Claim C5: the knowledge-base loader is memoized — with a populated cache it
returns the cached chunks unconditionally, regardless of the file's current contents;
on first load it chunks and caches the file's contents; and if the file is absent on
first load it caches and returns the empty sequence instead of raising. -/
theorem kb_loader_memoized :
    (∀ (fs : Option PyStr) (c : List PyStr),
      load_and_chunk_knowledge_base fs (some c) = (c, some c)) ∧
    (∀ content : PyStr, load_and_chunk_knowledge_base (some content) none =
      (chunk_knowledge_base content, some (chunk_knowledge_base content))) ∧
    load_and_chunk_knowledge_base none none = ([], some []) :=
  ⟨fun _ _ => rfl, fun _ => rfl, rfl⟩

/-- Claim C7: injection uses a character budget of `max_context_tokens * 4`; a
formatted context over budget is replaced by exactly its first `max_context_tokens * 4`
characters followed by the fixed truncation marker; with `max_context_tokens = 1` the
injected context before the marker is at most 4 characters; and the string injected by
`enrich_payload_with_rag` wraps exactly this truncated context. -/
theorem truncation_budget (ctx : PyStr) (tok : Nat) :
    (0 < tok → tok * 4 < ctx.length →
      truncated_context ctx tok = ctx.take (tok * 4) ++ truncMarker) ∧
    ((ctx.length ≤ 4 ∧ truncated_context ctx 1 = ctx) ∨
      (truncated_context ctx 1 = ctx.take 4 ++ truncMarker ∧ (ctx.take 4).length ≤ 4)) ∧
    (∀ rc kb : List PyStr, rag_addition_of rc kb tok =
      pyOfString "\n\n" ++ truncated_context (format_context_for_injection rc kb) tok ++
        pyOfString "\n\nBased on the above context, please provide your analysis and recommendations.\n") := by
  refine ⟨?_, ?_, fun rc kb => rfl⟩
  · intro _ hlen
    unfold truncated_context
    rw [if_pos hlen]
  · by_cases h : 1 * 4 < ctx.length
    · right
      constructor
      · unfold truncated_context
        rw [if_pos h]
      · simp [List.length_take]
    · left
      refine ⟨by omega, ?_⟩
      unfold truncated_context
      rw [if_neg h]

/-- Witness for `truncation_budget` at a concrete 5-character context and
`max_context_tokens = 1`. -/
theorem truncation_budget_witness :
    0 < 1 ∧ 1 * 4 < (pyOfString "abcde").length ∧
    truncated_context (pyOfString "abcde") 1 = (pyOfString "abcde").take (1 * 4) ++ truncMarker :=
  ⟨by decide, by decide, (truncation_budget (pyOfString "abcde") 1).1 (by decide) (by decide)⟩

/-! Helper lemmas for non-negativity and monotonicity of the scorer. -/

lemma calculate_relevance_score_eq (text : PyStr) (kws : List PyStr) :
    calculate_relevance_score text kws =
      if (text.isEmpty || kws.isEmpty) = true then 0
      else if 1 < (matchedKeywords (pyLower text) kws).length then
        (kws.map (scoreTerm (pyLower text))).sum *
          (1 + ((matchedKeywords (pyLower text) kws).length : ℚ) * (1 / 10))
      else (kws.map (scoreTerm (pyLower text))).sum := rfl

lemma scoreTerm_nonneg (tl k : PyStr) : 0 ≤ scoreTerm tl k := by
  unfold scoreTerm
  split
  · positivity
  · exact le_refl 0

lemma score_base_nonneg (tl : PyStr) (kws : List PyStr) :
    0 ≤ (kws.map (scoreTerm tl)).sum := by
  apply List.sum_nonneg
  intro x hx
  rw [List.mem_map] at hx
  obtain ⟨k, _, rfl⟩ := hx
  exact scoreTerm_nonneg tl k

lemma score_nonneg (text : PyStr) (kws : List PyStr) :
    0 ≤ calculate_relevance_score text kws := by
  rw [calculate_relevance_score_eq]
  split
  · exact le_refl 0
  · split
    · have h1 : (0 : ℚ) ≤ 1 + ((matchedKeywords (pyLower text) kws).length : ℚ) * (1 / 10) := by
        positivity
      exact mul_nonneg (score_base_nonneg _ _) h1
    · exact score_base_nonneg _ _

lemma scoreTerm_mono (tl tl' k : PyStr)
    (h : countOcc tl (pyLower k) ≤ countOcc tl' (pyLower k)) :
    scoreTerm tl k ≤ scoreTerm tl' k := by
  unfold scoreTerm
  by_cases h0 : 0 < countOcc tl (pyLower k)
  · rw [if_pos h0, if_pos (lt_of_lt_of_le h0 h)]
    apply mul_le_mul_of_nonneg_right
    · exact_mod_cast h
    · positivity
  · rw [if_neg h0]
    split
    · positivity
    · exact le_refl 0

lemma matched_length_mono (tl tl' : PyStr) (kws : List PyStr)
    (h : ∀ k ∈ kws, countOcc tl (pyLower k) ≤ countOcc tl' (pyLower k)) :
    (matchedKeywords tl kws).length ≤ (matchedKeywords tl' kws).length := by
  unfold matchedKeywords
  rw [← List.card_toFinset, ← List.card_toFinset]
  apply Finset.card_le_card
  intro x hx
  rw [List.mem_toFinset, List.mem_filter, decide_eq_true_eq] at hx
  rw [List.mem_toFinset, List.mem_filter, decide_eq_true_eq]
  exact ⟨hx.1, lt_of_lt_of_le hx.2 (h x hx.1)⟩

lemma score_eq_zero_of_counts (text : PyStr) (kws : List PyStr)
    (h : ∀ k ∈ kws, countOcc (pyLower text) (pyLower k) = 0) :
    calculate_relevance_score text kws = 0 := by
  rw [calculate_relevance_score_eq]
  split
  · rfl
  · have hmatched : matchedKeywords (pyLower text) kws = [] := by
      unfold matchedKeywords
      rw [List.dedup_eq_nil, List.filter_eq_nil_iff]
      intro a ha
      simp [h a ha]
    have hsum : (kws.map (scoreTerm (pyLower text))).sum = 0 := by
      rw [List.sum_eq_zero]
      intro x hx
      rw [List.mem_map] at hx
      obtain ⟨k, hk, rfl⟩ := hx
      unfold scoreTerm
      rw [if_neg (by rw [h k hk]; omega)]
    rw [hmatched, hsum]
    simp

lemma score_mono_of_counts (text text' : PyStr) (kws : List PyStr)
    (hpt : ∀ k' ∈ kws, countOcc (pyLower text) (pyLower k') ≤
      countOcc (pyLower text') (pyLower k'))
    (ht : text ≠ []) (ht' : text' ≠ []) :
    calculate_relevance_score text kws ≤ calculate_relevance_score text' kws := by
  by_cases hkw : kws = []
  · subst hkw
    rw [calculate_relevance_score_eq, calculate_relevance_score_eq]
    simp
  · have hc : (text.isEmpty || kws.isEmpty) = false := by
      simp [List.isEmpty_iff, ht, hkw]
    have hc' : (text'.isEmpty || kws.isEmpty) = false := by
      simp [List.isEmpty_iff, ht', hkw]
    rw [calculate_relevance_score_eq, calculate_relevance_score_eq, hc, hc']
    simp only [Bool.false_eq_true, if_false]
    have hbase : (kws.map (scoreTerm (pyLower text))).sum ≤
        (kws.map (scoreTerm (pyLower text'))).sum := by
      apply List.sum_le_sum
      intro k hk
      exact scoreTerm_mono _ _ k (hpt k hk)
    have hbase' : 0 ≤ (kws.map (scoreTerm (pyLower text'))).sum := score_base_nonneg _ _
    have hmono := matched_length_mono (pyLower text) (pyLower text') kws hpt
    by_cases hm : 1 < (matchedKeywords (pyLower text) kws).length
    · rw [if_pos hm, if_pos (lt_of_lt_of_le hm hmono)]
      apply mul_le_mul hbase _ (by positivity) hbase'
      have hcast : ((matchedKeywords (pyLower text) kws).length : ℚ) ≤
          ((matchedKeywords (pyLower text') kws).length : ℚ) := by exact_mod_cast hmono
      nlinarith
    · rw [if_neg hm]
      split
      · calc (kws.map (scoreTerm (pyLower text))).sum ≤
            (kws.map (scoreTerm (pyLower text'))).sum := hbase
          _ ≤ (kws.map (scoreTerm (pyLower text'))).sum *
              (1 + ((matchedKeywords (pyLower text') kws).length : ℚ) * (1 / 10)) := by
            apply le_mul_of_one_le_right hbase'
            have h0 : (0 : ℚ) ≤
                ((matchedKeywords (pyLower text') kws).length : ℚ) * (1 / 10) := by positivity
            linarith
      · exact hbase

/-- Claim C6: the relevance score is non-negative for every text and keyword list;
and when the text changes so that one keyword's case-insensitive occurrence count
does not decrease while every other keyword's occurrence count stays the same, the
score does not decrease. -/
theorem relevance_score_nonneg_and_monotone :
    (∀ (text : PyStr) (keywords : List PyStr), 0 ≤ calculate_relevance_score text keywords) ∧
    (∀ (text text' : PyStr) (keywords : List PyStr) (k : PyStr), k ∈ keywords →
      countOcc (pyLower text) (pyLower k) ≤ countOcc (pyLower text') (pyLower k) →
      (∀ k' ∈ keywords, k' ≠ k →
        countOcc (pyLower text') (pyLower k') = countOcc (pyLower text) (pyLower k')) →
      calculate_relevance_score text keywords ≤ calculate_relevance_score text' keywords) := by
  refine ⟨score_nonneg, ?_⟩
  intro text text' kws k hk hinc hoth
  have hpt : ∀ k' ∈ kws, countOcc (pyLower text) (pyLower k') ≤
      countOcc (pyLower text') (pyLower k') := by
    intro k' hk'
    by_cases he : k' = k
    · rw [he]; exact hinc
    · exact le_of_eq (hoth k' hk' he).symm
  by_cases ht : text = []
  · subst ht
    have h0 : calculate_relevance_score [] kws = 0 := by
      rw [calculate_relevance_score_eq]; simp
    rw [h0]
    exact score_nonneg _ _
  by_cases ht' : text' = []
  · subst ht'
    have hz : ∀ k' ∈ kws, countOcc (pyLower text) (pyLower k') = 0 := by
      intro k' hk'
      have hle := hpt k' hk'
      cases hpl : pyLower k' with
      | nil =>
        rw [hpl] at hle
        have h1 : countOcc (pyLower text) [] = (pyLower text).length + 1 := rfl
        have h2 : countOcc (pyLower ([] : PyStr)) [] = 1 := rfl
        rw [h1, h2] at hle
        have h3 : (pyLower text).length = 0 := by omega
        rw [pyLower, List.length_map] at h3
        exact absurd (List.length_eq_zero.mp h3) ht
      | cons a l =>
        rw [hpl] at hle
        have h2 : countOcc (pyLower ([] : PyStr)) (a :: l) = 0 := rfl
        rw [h2] at hle
        omega
    rw [score_eq_zero_of_counts text kws hz]
    exact score_nonneg _ _
  · exact score_mono_of_counts text text' kws hpt ht ht'

/-- Witness for `relevance_score_nonneg_and_monotone`: growing the text from
`"sql"` to `"sql sql"` raises the count of keyword `"sql"` and the score does not
decrease. -/
theorem relevance_monotone_witness :
    (pyOfString "sql") ∈ [pyOfString "sql"] ∧
    countOcc (pyLower (pyOfString "sql")) (pyLower (pyOfString "sql")) ≤
      countOcc (pyLower (pyOfString "sql sql")) (pyLower (pyOfString "sql")) ∧
    0 ≤ calculate_relevance_score (pyOfString "sql") [pyOfString "sql"] ∧
    calculate_relevance_score (pyOfString "sql") [pyOfString "sql"] ≤
      calculate_relevance_score (pyOfString "sql sql") [pyOfString "sql"] :=
  ⟨by decide, by decide,
    relevance_score_nonneg_and_monotone.1 (pyOfString "sql") [pyOfString "sql"],
    relevance_score_nonneg_and_monotone.2 (pyOfString "sql") (pyOfString "sql sql")
      [pyOfString "sql"] (pyOfString "sql") (by decide) (by decide) (by decide)⟩

/-! Helper lemmas for keyword normalization and extraction. -/

lemma extract_keywords_eq (E : Extractors) (p : Payload) :
    extract_keywords_from_payload E p =
      normalize_keywords (
        ((p.queries.getD []).flatMap fun q =>
          E.extract_sql_keywords (q.sql.getD []) (q.method_name.getD [])) ++
        ((p.messages.getD []).flatMap fun m => E.extract_content_keywords m.content) ++
        ((p.repositories.getD []).flatMap fun r => E.extract_java_keywords r.text) ++
        ((p.entities.getD []).flatMap fun e => E.extract_java_keywords e.text) ++
        baseline_keywords) := rfl

lemma mem_normalize {k : PyStr} {l : List PyStr} :
    k ∈ normalize_keywords l ↔
      (∃ x ∈ l, pyStrip (pyLower x) = k) ∧
      2 < k.length ∧ k ∉ stop_words ∧ pyIsDigit k = false := by
  unfold normalize_keywords
  rw [List.mem_dedup, List.mem_filter, List.mem_map]
  simp only [Bool.and_eq_true, decide_eq_true_eq, Bool.not_eq_true']
  constructor
  · rintro ⟨⟨x, hx, rfl⟩, ⟨hlen, hstop⟩, hdig⟩
    exact ⟨⟨x, hx, rfl⟩, hlen, by simpa using hstop, hdig⟩
  · rintro ⟨⟨x, hx, rfl⟩, hlen, hstop, hdig⟩
    exact ⟨⟨x, hx, rfl⟩, ⟨hlen, by simpa using hstop⟩, hdig⟩

lemma baseline_strip_lower : ∀ t ∈ baseline_keywords,
    pyStrip (pyLower t) = t ∧ 2 < t.length ∧ t ∉ stop_words ∧ pyIsDigit t = false := by
  intro t ht
  simp only [baseline_keywords, List.mem_cons, List.not_mem_nil, or_false] at ht
  rcases ht with rfl | rfl | rfl | rfl | rfl | rfl | rfl <;> decide

lemma mem_extract_baseline (E : Extractors) (p : Payload) :
    ∀ t ∈ baseline_keywords, t ∈ extract_keywords_from_payload E p := by
  intro t ht
  rw [extract_keywords_eq, mem_normalize]
  obtain ⟨hs, hlen, hstop, hdig⟩ := baseline_strip_lower t ht
  exact ⟨⟨t, List.mem_append_right _ ht, hs⟩, hlen, hstop, hdig⟩

lemma extract_ne_nil (E : Extractors) (p : Payload) :
    extract_keywords_from_payload E p ≠ [] := by
  intro hnil
  have hmem := mem_extract_baseline E p (pyOfString "sql") (by decide)
  rw [hnil] at hmem
  exact List.not_mem_nil _ hmem

/-- Claim C8: a payload with none of the keys `queries`, `messages`, `repositories`,
`entities` yields exactly the normalized fixed baseline term set, whatever the three
regex extractors would do. -/
theorem extract_keywords_baseline_only (E : Extractors) (p : Payload)
    (hq : p.queries = none) (hm : p.messages = none)
    (hr : p.repositories = none) (he : p.entities = none) :
    extract_keywords_from_payload E p = baseline_keywords := by
  obtain ⟨q, m, r, e⟩ := p
  cases hq
  cases hm
  cases hr
  cases he
  show normalize_keywords ([] ++ [] ++ [] ++ [] ++ baseline_keywords) = baseline_keywords
  decide

/-- Witness for `extract_keywords_baseline_only` at the empty payload with trivial
extractors. -/
theorem extract_keywords_baseline_only_witness :
    extract_keywords_from_payload trivialExtractors
      { queries := none, messages := none, repositories := none, entities := none } =
      baseline_keywords :=
  extract_keywords_baseline_only trivialExtractors _ rfl rfl rfl rfl

/-- Claim C9: every keyword returned by `extract_keywords_from_payload` is lowercase,
trimmed, longer than 2 characters, not a stopword, and not purely numeric, and the
returned collection contains no duplicates — for every payload and every behaviour of
the regex extractors. -/
theorem extracted_keywords_normalized (E : Extractors) (p : Payload) :
    (extract_keywords_from_payload E p).Nodup ∧
    ∀ k ∈ extract_keywords_from_payload E p,
      pyLower k = k ∧ pyStrip k = k ∧ 2 < k.length ∧ k ∉ stop_words ∧
        pyIsDigit k = false := by
  constructor
  · rw [extract_keywords_eq]
    exact List.nodup_dedup _
  · intro k hk
    rw [extract_keywords_eq, mem_normalize] at hk
    obtain ⟨⟨x, _, hx⟩, hlen, hstop, hdig⟩ := hk
    refine ⟨?_, ?_, hlen, hstop, hdig⟩
    · rw [← hx, pyLower_pyStrip, pyLower_pyLower]
    · rw [← hx, pyStrip_idem]

/-- Witness for `extracted_keywords_normalized`: the keyword `"sql"` extracted from
the empty payload satisfies every invariant. -/
theorem extracted_keywords_normalized_witness :
    pyLower (pyOfString "sql") = pyOfString "sql" ∧
    pyStrip (pyOfString "sql") = pyOfString "sql" ∧
    2 < (pyOfString "sql").length ∧ (pyOfString "sql") ∉ stop_words ∧
    pyIsDigit (pyOfString "sql") = false :=
  (extracted_keywords_normalized trivialExtractors
    { queries := none, messages := none, repositories := none, entities := none }).2
    (pyOfString "sql") (by decide)

/-- Claim C10: for every payload (and every behaviour of the regex extractors), the
extracted keyword set contains all seven baseline terms and is therefore never empty,
so the empty-keyword short-circuit `if not keywords:` in `enrich_payload_with_rag`
(the `keywords.isEmpty` guard of the embedding) can never fire. -/
theorem baseline_always_extracted (E : Extractors) (p : Payload) :
    (∀ t ∈ baseline_keywords, t ∈ extract_keywords_from_payload E p) ∧
    extract_keywords_from_payload E p ≠ [] :=
  ⟨mem_extract_baseline E p, extract_ne_nil E p⟩

/-- Witness for `baseline_always_extracted` at the empty payload with trivial
extractors, checked on the baseline term `"hibernate"`. -/
theorem baseline_always_extracted_witness :
    (pyOfString "hibernate") ∈ extract_keywords_from_payload trivialExtractors
      { queries := none, messages := none, repositories := none, entities := none } ∧
    extract_keywords_from_payload trivialExtractors
      { queries := none, messages := none, repositories := none, entities := none } ≠ [] :=
  ⟨(baseline_always_extracted trivialExtractors _).1 (pyOfString "hibernate") (by decide),
    (baseline_always_extracted trivialExtractors _).2⟩

/-! Helper lemmas for the stable descending sort used by both searches. -/

lemma insertD_perm (x : PyStr × ℚ) (l : List (PyStr × ℚ)) :
    List.Perm (insertD x l) (x :: l) := by
  induction l with
  | nil => exact List.Perm.refl _
  | cons y ys ih =>
    unfold insertD
    split
    · exact ((ih.cons y).trans (List.Perm.swap x y ys))
    · exact List.Perm.refl _

lemma sortD_perm (l : List (PyStr × ℚ)) : List.Perm (sortD l) l := by
  induction l with
  | nil => exact List.Perm.refl _
  | cons x xs ih => exact (insertD_perm x (sortD xs)).trans (ih.cons x)

lemma insertD_pairwise (x : PyStr × ℚ) (l : List (PyStr × ℚ))
    (h : l.Pairwise (fun a b => b.2 ≤ a.2)) :
    (insertD x l).Pairwise (fun a b => b.2 ≤ a.2) := by
  induction l with
  | nil => simp [insertD]
  | cons y ys ih =>
    rw [List.pairwise_cons] at h
    obtain ⟨hy, hys⟩ := h
    unfold insertD
    split
    · rename_i hxy
      rw [List.pairwise_cons]
      refine ⟨?_, ih hys⟩
      intro b hb
      rcases List.mem_cons.mp ((insertD_perm x ys).mem_iff.mp hb) with rfl | hbys
      · exact le_of_lt hxy
      · exact hy b hbys
    · rename_i hxy
      rw [List.pairwise_cons]
      refine ⟨?_, List.pairwise_cons.mpr ⟨hy, hys⟩⟩
      intro b hb
      rcases List.mem_cons.mp hb with rfl | hbys
      · exact not_lt.mp hxy
      · exact le_trans (hy b hbys) (not_lt.mp hxy)

lemma sortD_pairwise (l : List (PyStr × ℚ)) :
    (sortD l).Pairwise (fun a b => b.2 ≤ a.2) := by
  induction l with
  | nil => simp [sortD]
  | cons x xs ih => exact insertD_pairwise x (sortD xs) ih

lemma insertD_filter (x : PyStr × ℚ) (l : List (PyStr × ℚ)) (s : ℚ) :
    (insertD x l).filter (fun y => decide (y.2 = s)) =
      if x.2 = s then x :: l.filter (fun y => decide (y.2 = s))
      else l.filter (fun y => decide (y.2 = s)) := by
  induction l with
  | nil =>
    by_cases hx : x.2 = s
    · simp [insertD, List.filter_cons, hx]
    · simp [insertD, List.filter_cons, hx]
  | cons y ys ih =>
    unfold insertD
    split
    · rename_i hxy
      by_cases hy : y.2 = s
      · have hx : ¬ x.2 = s := by rw [← hy] at *; exact ne_of_lt hxy
        simp [List.filter_cons, hy, hx, ih]
      · rw [List.filter_cons, if_neg (by simpa using hy), ih]
        by_cases hx : x.2 = s
        · rw [if_pos hx, if_pos hx, List.filter_cons, if_neg (by simpa using hy)]
        · rw [if_neg hx, if_neg hx, List.filter_cons, if_neg (by simpa using hy)]
    · by_cases hx : x.2 = s
      · simp [List.filter_cons, hx]
      · simp [List.filter_cons, hx]

lemma sortD_filter (l : List (PyStr × ℚ)) (s : ℚ) :
    (sortD l).filter (fun y => decide (y.2 = s)) = l.filter (fun y => decide (y.2 = s)) := by
  induction l with
  | nil => rfl
  | cons x xs ih =>
    show (insertD x (sortD xs)).filter (fun y => decide (y.2 = s)) = _
    rw [insertD_filter, List.filter_cons]
    by_cases hx : x.2 = s
    · rw [if_pos hx, if_pos (by simpa using hx), ih]
    · rw [if_neg hx, if_neg (by simpa using hx), ih]

lemma filterMap_scored {α : Type} (l : List α) (f : α → PyStr) (g : α → ℚ) :
    (l.filterMap fun x => if 0 < g x then some (f x, g x) else none) =
      ((l.map fun x => (f x, g x)).filter fun c => decide (0 < c.2)) := by
  induction l with
  | nil => rfl
  | cons a l ih =>
    by_cases h : 0 < g a
    · simp [List.filterMap_cons, List.filter_cons, h, ih]
    · simp [List.filterMap_cons, List.filter_cons, h, ih]

/-- Claim C4 (amended): the payload search equals its specification — one blob per
repository, entity and query entry, exactly the positive-score entries kept, stable
descending sort by score (ties keep encounter order, witnessed by the permutation,
sortedness and filter-stability of `sortD`), at most `max_snippets` labeled blocks;
repository and entity blobs are truncated to 400 characters (plus an ellipsis) while
query blobs are included in full. -/
theorem payload_search_matches_spec :
    (∀ (kws : List PyStr) (p : Payload) (n : Nat),
      search_payload_context kws p n = search_payload_context_spec kws p n) ∧
    (∀ (kws : List PyStr) (p : Payload) (n : Nat),
      (search_payload_context kws p n).length ≤ n) ∧
    (∀ l : List (PyStr × ℚ), List.Perm (sortD l) l) ∧
    (∀ l : List (PyStr × ℚ), (sortD l).Pairwise (fun a b => b.2 ≤ a.2)) ∧
    (∀ (l : List (PyStr × ℚ)) (s : ℚ),
      (sortD l).filter (fun y => decide (y.2 = s)) =
        l.filter (fun y => decide (y.2 = s))) := by
  refine ⟨?_, ?_, sortD_perm, sortD_pairwise, sortD_filter⟩
  · intro kws p n
    simp only [search_payload_context, search_payload_context_spec, filterMap_scored,
      List.map_append, List.filter_append, List.map_map, Function.comp_def]
  · intro kws p n
    unfold search_payload_context
    rw [List.length_map]
    exact List.length_take_le n _

set_option maxRecDepth 200000 in
/-- Claim C4 (counterexample): with keyword `"sql"` and a payload holding one query
whose SQL text is 401 characters long, the returned block contains the whole
416-character blob — `Query: m` + newline + full blob, 425 characters in all — and is
not the label followed by a 400-character truncation of the blob (with or without an
ellipsis), so query blobs are not truncated to 400 characters. -/
theorem payload_search_counterexample :
    search_payload_context [pyOfString "sql"] c4Payload 3 = [c4Block] ∧
    c4Block.length = 425 ∧
    c4Block ≠ (pyOfString "Query: " ++ pyOfString "m" ++ [10]) ++ c4Blob.take 400 ∧
    c4Block ≠ (pyOfString "Query: " ++ pyOfString "m" ++ [10]) ++ c4Blob.take 400 ++
      pyOfString "..." := by
  refine ⟨by with_unfolding_all decide, by decide, by decide, by decide⟩

/-! Helper lemmas for context injection into the last user message. -/

lemma appendFirstUser_no_user (add : PyStr) (l : List Message)
    (h : ∀ m ∈ l, m.role ≠ some userStr) : appendFirstUser add l = l := by
  induction l with
  | nil => rfl
  | cons a t ih =>
    unfold appendFirstUser
    rw [if_neg (h a (List.mem_cons_self a t))]
    rw [ih (fun m hm => h m (List.mem_cons_of_mem a hm))]

lemma appendFirstUser_found (add : PyStr) (pre : List Message) (m : Message)
    (suf : List Message) (hpre : ∀ x ∈ pre, x.role ≠ some userStr)
    (hm : m.role = some userStr) :
    appendFirstUser add (pre ++ m :: suf) = pre ++ updMsg m add :: suf := by
  induction pre with
  | nil =>
    show appendFirstUser add (m :: suf) = updMsg m add :: suf
    unfold appendFirstUser
    rw [if_pos hm]
  | cons a t ih =>
    show appendFirstUser add (a :: (t ++ m :: suf)) = a :: (t ++ updMsg m add :: suf)
    unfold appendFirstUser
    rw [if_neg (hpre a (List.mem_cons_self a t))]
    rw [ih (fun x hx => hpre x (List.mem_cons_of_mem a hx))]

lemma appendToLastUser_found (msgs pre suf : List Message) (m : Message) (add : PyStr)
    (hdecomp : msgs = pre ++ m :: suf) (hm : m.role = some userStr)
    (hsuf : ∀ x ∈ suf, x.role ≠ some userStr) :
    appendToLastUser msgs add = pre ++ updMsg m add :: suf := by
  subst hdecomp
  unfold appendToLastUser
  rw [List.reverse_append, List.reverse_cons, List.append_assoc, List.singleton_append]
  rw [appendFirstUser_found add suf.reverse m pre.reverse
    (fun x hx => hsuf x (List.mem_reverse.mp hx)) hm]
  simp [List.reverse_append]

lemma appendToLastUser_no_user (msgs : List Message) (add : PyStr)
    (h : ∀ m ∈ msgs, m.role ≠ some userStr) : appendToLastUser msgs add = msgs := by
  unfold appendToLastUser
  rw [appendFirstUser_no_user add _ (fun m hm => h m (List.mem_reverse.mp hm)),
    List.reverse_reverse]

lemma exists_first_split (p : Message → Prop) (l : List Message) (h : ∃ m ∈ l, p m) :
    ∃ pre m suf, l = pre ++ m :: suf ∧ p m ∧ ∀ x ∈ pre, ¬ p x := by
  induction l with
  | nil =>
    obtain ⟨m, hm, _⟩ := h
    exact absurd hm (List.not_mem_nil m)
  | cons a t ih =>
    by_cases ha : p a
    · exact ⟨[], a, t, rfl, ha, by simp⟩
    · have ht : ∃ m ∈ t, p m := by
        obtain ⟨m, hm, hpm⟩ := h
        rcases List.mem_cons.mp hm with rfl | hmt
        · exact absurd hpm ha
        · exact ⟨m, hmt, hpm⟩
      obtain ⟨pre, m, suf, hd, hpm, hpre⟩ := ih ht
      refine ⟨a :: pre, m, suf, by rw [hd]; rfl, hpm, ?_⟩
      intro x hx
      rcases List.mem_cons.mp hx with rfl | hxp
      · exact ha
      · exact hpre x hxp

lemma exists_last_user_split (msgs : List Message)
    (h : ∃ m ∈ msgs, m.role = some userStr) :
    ∃ pre m suf, msgs = pre ++ m :: suf ∧ m.role = some userStr ∧
      ∀ x ∈ suf, x.role ≠ some userStr := by
  have hrev : ∃ m ∈ msgs.reverse, m.role = some userStr := by
    obtain ⟨m, hm, hp⟩ := h
    exact ⟨m, List.mem_reverse.mpr hm, hp⟩
  obtain ⟨pre', m, suf', hd, hp, hpre'⟩ :=
    exists_first_split (fun x => x.role = some userStr) msgs.reverse hrev
  refine ⟨suf'.reverse, m, pre'.reverse, ?_, hp, ?_⟩
  · have hm := congrArg List.reverse hd
    rw [List.reverse_reverse] at hm
    rw [hm]
    simp [List.reverse_append]
  · intro x hx
    exact hpre' x (List.mem_reverse.mp hx)

lemma enrich_eq (E : Extractors) (fs : Option PyStr) (st : Option (List PyStr))
    (p : Payload) (tok : Nat) :
    enrich_payload_with_rag E fs st p tok =
      if (extract_keywords_from_payload E p).isEmpty then (p, st)
      else if (!(search_payload_context (extract_keywords_from_payload E p) p 4).isEmpty ||
          !((search_knowledge_base (extract_keywords_from_payload E p) fs st 3).1).isEmpty) &&
          p.messages.isSome then
        ({ p with messages := some (appendToLastUser (p.messages.getD [])
            (rag_addition_of (search_payload_context (extract_keywords_from_payload E p) p 4)
              ((search_knowledge_base (extract_keywords_from_payload E p) fs st 3).1) tok)) },
          (search_knowledge_base (extract_keywords_from_payload E p) fs st 3).2)
      else (p, (search_knowledge_base (extract_keywords_from_payload E p) fs st 3).2) := rfl

/-- Claim C2: when the payload has a `messages` list containing a user message and at
least one of the two retrieved snippet lists is non-empty, enrichment appends the
context-plus-instruction string to the content of exactly the last message whose role
is `"user"` — every message before it (`pre`) and after it (`suf`) is unchanged, as
are the other payload fields; when no message has role `"user"`, or both snippet
lists are empty, the payload is returned unmodified. -/
theorem enrichment_mutates_last_user (E : Extractors) (fs : Option PyStr)
    (st : Option (List PyStr)) (p : Payload) (tok : Nat) :
    (∀ msgs : List Message, p.messages = some msgs →
      (search_payload_context (extract_keywords_from_payload E p) p 4 ≠ [] ∨
        (search_knowledge_base (extract_keywords_from_payload E p) fs st 3).1 ≠ []) →
      (∃ m ∈ msgs, m.role = some userStr) →
      ∃ pre m suf, msgs = pre ++ m :: suf ∧ m.role = some userStr ∧
        (∀ x ∈ suf, x.role ≠ some userStr) ∧
        (enrich_payload_with_rag E fs st p tok).1 =
          { p with messages := some (pre ++
              updMsg m (rag_addition_of
                (search_payload_context (extract_keywords_from_payload E p) p 4)
                ((search_knowledge_base (extract_keywords_from_payload E p) fs st 3).1)
                tok) :: suf) }) ∧
    (∀ msgs : List Message, p.messages = some msgs →
      (∀ m ∈ msgs, m.role ≠ some userStr) →
      (enrich_payload_with_rag E fs st p tok).1 = p) ∧
    (search_payload_context (extract_keywords_from_payload E p) p 4 = [] ∧
      (search_knowledge_base (extract_keywords_from_payload E p) fs st 3).1 = [] →
      (enrich_payload_with_rag E fs st p tok).1 = p) := by
  have hkw : ¬ (extract_keywords_from_payload E p).isEmpty = true := by
    rw [List.isEmpty_iff]
    exact extract_ne_nil E p
  refine ⟨?_, ?_, ?_⟩
  · intro msgs hmsgs hsnip huser
    obtain ⟨pre, m, suf, hd, hm, hsuf⟩ := exists_last_user_split msgs huser
    refine ⟨pre, m, suf, hd, hm, hsuf, ?_⟩
    have hcond : ((!(search_payload_context (extract_keywords_from_payload E p) p 4).isEmpty ||
        !((search_knowledge_base (extract_keywords_from_payload E p) fs st 3).1).isEmpty) &&
        p.messages.isSome) = true := by
      rw [Bool.and_eq_true]
      constructor
      · rw [Bool.or_eq_true]
        rcases hsnip with h | h
        · left; simp [List.isEmpty_iff, h]
        · right; simp [List.isEmpty_iff, h]
      · rw [hmsgs]; rfl
    rw [enrich_eq, if_neg hkw, if_pos hcond]
    show ({ p with messages := some (appendToLastUser (p.messages.getD []) _) }) = _
    rw [hmsgs]
    simp only [Option.getD_some]
    rw [appendToLastUser_found msgs pre suf m _ hd hm hsuf]
  · intro msgs hmsgs hnouser
    rw [enrich_eq, if_neg hkw]
    by_cases hcond : ((!(search_payload_context (extract_keywords_from_payload E p) p 4).isEmpty ||
        !((search_knowledge_base (extract_keywords_from_payload E p) fs st 3).1).isEmpty) &&
        p.messages.isSome) = true
    · rw [if_pos hcond]
      show ({ p with messages := some (appendToLastUser (p.messages.getD []) _) }) = p
      rw [hmsgs]
      simp only [Option.getD_some]
      rw [appendToLastUser_no_user msgs _ hnouser]
      obtain ⟨q, pm, r, e⟩ := p
      have hpm : pm = some msgs := hmsgs
      rw [hpm]
    · rw [if_neg hcond]
  · intro ⟨h1, h2⟩
    rw [enrich_eq, if_neg hkw]
    rw [if_neg (by simp [List.isEmpty_iff, h1, h2])]

/-- Witness for `enrichment_mutates_last_user`: a payload with one matching query, a
system message and a trailing user message; the retrieved payload snippets are
non-empty and the last user message receives the context. -/
theorem enrichment_mutates_last_user_witness :
    ∃ pre m suf,
      [({ role := some (pyOfString "system"), content := pyOfString "sys" } : Message),
        { role := some userStr, content := pyOfString "hi" }] = pre ++ m :: suf ∧
      m.role = some userStr ∧ (∀ x ∈ suf, x.role ≠ some userStr) ∧
      (enrich_payload_with_rag trivialExtractors none none w2Payload 30000).1 =
        { w2Payload with messages := some (pre ++
            updMsg m (rag_addition_of
              (search_payload_context
                (extract_keywords_from_payload trivialExtractors w2Payload) w2Payload 4)
              ((search_knowledge_base
                (extract_keywords_from_payload trivialExtractors w2Payload) none none 3).1)
              30000) :: suf) } :=
  (enrichment_mutates_last_user trivialExtractors none none w2Payload 30000).1
    [{ role := some (pyOfString "system"), content := pyOfString "sys" },
      { role := some userStr, content := pyOfString "hi" }]
    rfl (Or.inl (by with_unfolding_all decide)) (by decide)
